import Mathlib

/-!
Verification of the `fwlib` utility library (Fireworks extension helpers).

This file gives a shallow embedding of the two host-independent subsystems:

* the chunked key/value store `DomStorage` (src/lib/fwlib/DomStorage.js),
  which splits a serialized payload into 1023-character chunks stored in the
  host's size-limited `dom.pngText` slots, and
* the layer-tree reconstruction and navigation code of the `layers` module
  (src/lib/fwlib/files.js: `LayerTree.prototype.refresh`, the `Layer`
  accessors/navigation getters, and `layers.alertLayers`).

JavaScript strings are modelled as `List Char` where substring arithmetic
matters (chunking), and as Lean `String` where only concatenation is used
(the `alertLayers` text dump).
-/

set_option maxRecDepth 8192

namespace Fwlib

namespace DomStorage

/-- `k.ChunkSize` from DomStorage.js: the host limits each `dom.pngText`
slot to 1023 characters. -/
def ChunkSize : Nat := 1023

/-- The metadata record `_metadata = { name, chunkCount, version }` that
`save` serializes into `pngText[name]`. -/
structure Meta where
  name : String
  chunkCount : Nat
  version : Nat
  deriving Repr, DecidableEq

/-- The slice of the host's `dom.pngText` map used by one `DomStorage`
record with a fixed name: the slot `pngText[name]` (holding the serialized
metadata, `none` when the property is absent) and the chunk slots
`pngText[name + "_" + i]`, indexed here by the chunk number `i`.  A slot
holding `some []` models a slot that was written the empty string (the
store cannot delete slots). -/
structure PngStore where
  metaSlot : Option Meta
  chunkSlot : Nat → Option (List Char)

/-- One pass of the chunking loop in `save`:
`for (i = 0; i < len; i += k.ChunkSize) { ... dataString.substr(i, k.ChunkSize) ... }`.
`fuel` bounds the recursion; `chunksOf` supplies `fuel = length`, which is
enough because every pass consumes at least one character. -/
def chunksGo : Nat → List Char → List (List Char)
  | 0, _ => []
  | _ + 1, [] => []
  | fuel + 1, c :: cs =>
      (c :: cs).take ChunkSize :: chunksGo fuel ((c :: cs).drop ChunkSize)

/-- The list of chunks `save` writes for payload `s`: successive
`substr(i, ChunkSize)` slices.  An empty payload yields no chunks. -/
def chunksOf (s : List Char) : List (List Char) :=
  chunksGo s.length s

/-- The `chunkCount` value that `save` computes for payload `s` (the number
of loop passes). -/
def numChunks (s : List Char) : Nat :=
  (chunksOf s).length

/-- A single assignment `save` performs on the pngText store: either a
chunk-slot write `pngText[name + "_" + i] = chunkValue` or the metadata
write `pngText[name] = JSON.stringify(_metadata)`. -/
inductive WriteOp where
  | chunk : Nat → List Char → WriteOp
  | meta : Meta → WriteOp
  deriving Repr, DecidableEq

/-- Whether a write targets a chunk slot (not the metadata slot). -/
def WriteOp.isChunk : WriteOp → Bool
  | .chunk _ _ => true
  | .meta _ => false

/-- The chunk-writing loop of `save`: writes chunk `base` with the first
chunk, `base + 1` with the next, and so on (`chunkCount` starts at 0 and
is incremented after each write). -/
def chunkWrites (base : Nat) : List (List Char) → List WriteOp
  | [] => []
  | c :: cs => .chunk base c :: chunkWrites (base + 1) cs

/-- The clearing loop of `save`:
`for (i = chunkCount; i < _metadata.chunkCount; i++) pngText[name + "_" + i] = "";`
written here as `count` writes of the empty string starting at slot `base`. -/
def clearGo : Nat → Nat → List WriteOp
  | 0, _ => []
  | count + 1, base => .chunk base [] :: clearGo count (base + 1)

/-- The writes clearing slots `[newCount, oldCount)`; empty when
`oldCount ≤ newCount`, matching the `if (_metadata.chunkCount > chunkCount)`
guard. -/
def clearWrites (newCount oldCount : Nat) : List WriteOp :=
  clearGo (oldCount - newCount) newCount

/-- The metadata value stored at the end of `save`: the old record with
`chunkCount` set to the number of chunks just written
(`_metadata.chunkCount = chunkCount`). -/
def metaAfter (m : Meta) (s : List Char) : Meta :=
  { m with chunkCount := numChunks s }

/-- Apply one pngText assignment to the store. -/
def applyOp (st : PngStore) : WriteOp → PngStore
  | .chunk i v => { st with chunkSlot := fun j => if j = i then some v else st.chunkSlot j }
  | .meta m => { st with metaSlot := some m }

/-- Apply a sequence of pngText assignments in order. -/
def applyOps (st : PngStore) (ops : List WriteOp) : PngStore :=
  ops.foldl applyOp st

/-- The full sequence of store assignments performed by one call to `save`,
in program order: all chunk writes, then the clearing writes for now-unused
higher slots, then the metadata write last. -/
def saveTrace (m : Meta) (s : List Char) : List WriteOp :=
  chunkWrites 0 (chunksOf s) ++ clearWrites (numChunks s) m.chunkCount ++
    [.meta (metaAfter m s)]

/-- `save` from DomStorage.js, at the level of the pngText store: `m` is the
instance's `_metadata` before the call (whose `chunkCount` is the previously
recorded chunk count) and `s` the serialized payload `JSON.stringify(this)`. -/
def save (m : Meta) (s : List Char) (st : PngStore) : PngStore :=
  applyOps st (saveTrace m s)

/-- The chunk-reading loop of the `DomStorage` constructor:
`for (i = 0; i < chunkCount; i++) chunks.push(pngText[name + "_" + i]);`.
A missing slot (`undefined`) contributes the empty string, as in
`Array.prototype.join`. -/
def readChunks (st : PngStore) (n : Nat) : List (List Char) :=
  (List.range n).map fun i => (st.chunkSlot i).getD []

/-- The load path of the `DomStorage` constructor at the string level: read
the metadata slot; if absent, no stored data; otherwise read exactly
`chunkCount` chunk slots and join them. -/
def loadString (st : PngStore) : Option (List Char) :=
  match st.metaSlot with
  | none => none
  | some m => some (readChunks st m.chunkCount).flatten

lemma chunksGo_flatten (fuel : Nat) :
    ∀ s : List Char, s.length ≤ fuel → (chunksGo fuel s).flatten = s := by
  induction fuel with
  | zero =>
      intro s hs
      have hnil : s = [] := List.length_eq_zero.mp (Nat.le_zero.mp hs)
      subst hnil
      simp [chunksGo]
  | succ n ih =>
      intro s hs
      match s with
      | [] => simp [chunksGo]
      | c :: cs =>
          have hdrop : ((c :: cs).drop ChunkSize).length ≤ n := by
            simp only [List.length_drop, ChunkSize, List.length_cons]
            simp only [List.length_cons] at hs
            omega
          simp only [chunksGo, List.flatten_cons, ih _ hdrop]
          exact List.take_append_drop _ _

lemma flatten_chunksOf (s : List Char) : (chunksOf s).flatten = s :=
  chunksGo_flatten s.length s le_rfl

lemma applyOps_nil (st : PngStore) : applyOps st [] = st := rfl

lemma applyOps_cons (st : PngStore) (op : WriteOp) (rest : List WriteOp) :
    applyOps st (op :: rest) = applyOps (applyOp st op) rest := rfl

lemma applyOps_append (st : PngStore) (a b : List WriteOp) :
    applyOps st (a ++ b) = applyOps (applyOps st a) b := by
  simp [applyOps, List.foldl_append]

lemma applyOps_metaSlot_of_chunks :
    ∀ ops : List WriteOp, (∀ op ∈ ops, op.isChunk = true) →
      ∀ st : PngStore, (applyOps st ops).metaSlot = st.metaSlot := by
  intro ops
  induction ops with
  | nil => intro _ st; rfl
  | cons op rest ih =>
      intro h st
      have hop := h op (List.mem_cons_self _ _)
      have hrest := ih (fun o ho => h o (List.mem_cons_of_mem _ ho))
      match op with
      | .chunk i v =>
          rw [applyOps_cons, hrest]
          rfl
      | .meta m => simp [WriteOp.isChunk] at hop

lemma chunkWrites_isChunk (base : Nat) (cs : List (List Char)) :
    ∀ op ∈ chunkWrites base cs, op.isChunk = true := by
  induction cs generalizing base with
  | nil => intro op h; simp [chunkWrites] at h
  | cons c cs ih =>
      intro op h
      simp only [chunkWrites, List.mem_cons] at h
      rcases h with rfl | h
      · rfl
      · exact ih (base + 1) op h

lemma clearGo_isChunk (count base : Nat) :
    ∀ op ∈ clearGo count base, op.isChunk = true := by
  induction count generalizing base with
  | zero => intro op h; simp [clearGo] at h
  | succ n ih =>
      intro op h
      simp only [clearGo, List.mem_cons] at h
      rcases h with rfl | h
      · rfl
      · exact ih (base + 1) op h

lemma applyOps_chunkWrites_slot (cs : List (List Char)) :
    ∀ (base : Nat) (st : PngStore) (i : Nat),
      (applyOps st (chunkWrites base cs)).chunkSlot i =
        if base ≤ i ∧ i < base + cs.length then some (cs.getD (i - base) [])
        else st.chunkSlot i := by
  induction cs with
  | nil =>
      intro base st i
      have hno : ¬(base ≤ i ∧ i < base + ([] : List (List Char)).length) := by
        simp only [List.length_nil]
        omega
      rw [chunkWrites, applyOps_nil, if_neg hno]
  | cons c cs ih =>
      intro base st i
      rw [chunkWrites, applyOps_cons, ih]
      by_cases hb : base + 1 ≤ i ∧ i < base + 1 + cs.length
      · have h1 : base ≤ i ∧ i < base + (c :: cs).length := by
          simp only [List.length_cons]; omega
        rw [if_pos hb, if_pos h1]
        have hi : i - base = (i - (base + 1)) + 1 := by omega
        rw [hi]
        simp
      · rw [if_neg hb]
        by_cases hi : i = base
        · have h1 : base ≤ i ∧ i < base + (c :: cs).length := by
            simp only [List.length_cons]; omega
          rw [if_pos h1]
          have hz : i - base = 0 := by omega
          simp [applyOp, hi, hz]
        · have h1 : ¬(base ≤ i ∧ i < base + (c :: cs).length) := by
            simp only [List.length_cons]; omega
          rw [if_neg h1]
          simp [applyOp, hi]

lemma applyOps_clearGo_slot (count : Nat) :
    ∀ (base : Nat) (st : PngStore) (i : Nat),
      (applyOps st (clearGo count base)).chunkSlot i =
        if base ≤ i ∧ i < base + count then some [] else st.chunkSlot i := by
  induction count with
  | zero =>
      intro base st i
      have hno : ¬(base ≤ i ∧ i < base + 0) := by omega
      rw [clearGo, applyOps_nil, if_neg hno]
  | succ n ih =>
      intro base st i
      rw [clearGo, applyOps_cons, ih]
      by_cases hb : base + 1 ≤ i ∧ i < base + 1 + n
      · have h1 : base ≤ i ∧ i < base + (n + 1) := by omega
        rw [if_pos hb, if_pos h1]
      · rw [if_neg hb]
        by_cases hi : i = base
        · have h1 : base ≤ i ∧ i < base + (n + 1) := by omega
          rw [if_pos h1]
          simp [applyOp, hi]
        · have h1 : ¬(base ≤ i ∧ i < base + (n + 1)) := by omega
          rw [if_neg h1]
          simp [applyOp, hi]

lemma save_metaSlot (m : Meta) (s : List Char) (st : PngStore) :
    (save m s st).metaSlot = some (metaAfter m s) := by
  simp only [save, saveTrace, applyOps_append]
  rfl

lemma save_chunkSlot_lt (m : Meta) (s : List Char) (st : PngStore) (i : Nat)
    (hi : i < numChunks s) :
    (save m s st).chunkSlot i = some ((chunksOf s).getD i []) := by
  simp only [save, saveTrace, applyOps_append]
  have hmeta : (applyOps (applyOps (applyOps st (chunkWrites 0 (chunksOf s)))
      (clearWrites (numChunks s) m.chunkCount)) [.meta (metaAfter m s)]).chunkSlot i =
      (applyOps (applyOps st (chunkWrites 0 (chunksOf s)))
      (clearWrites (numChunks s) m.chunkCount)).chunkSlot i := rfl
  rw [hmeta, clearWrites, applyOps_clearGo_slot]
  have hno : ¬(numChunks s ≤ i ∧ i < numChunks s + (m.chunkCount - numChunks s)) := by
    omega
  rw [if_neg hno, applyOps_chunkWrites_slot]
  have hyes : 0 ≤ i ∧ i < 0 + (chunksOf s).length := ⟨Nat.zero_le _, by
    have : i < (chunksOf s).length := hi
    omega⟩
  rw [if_pos hyes]
  simp

lemma save_chunkSlot_cleared (m : Meta) (s : List Char) (st : PngStore) (i : Nat)
    (h1 : numChunks s ≤ i) (h2 : i < m.chunkCount) :
    (save m s st).chunkSlot i = some [] := by
  simp only [save, saveTrace, applyOps_append]
  have hmeta : (applyOps (applyOps (applyOps st (chunkWrites 0 (chunksOf s)))
      (clearWrites (numChunks s) m.chunkCount)) [.meta (metaAfter m s)]).chunkSlot i =
      (applyOps (applyOps st (chunkWrites 0 (chunksOf s)))
      (clearWrites (numChunks s) m.chunkCount)).chunkSlot i := rfl
  rw [hmeta, clearWrites, applyOps_clearGo_slot]
  have hyes : numChunks s ≤ i ∧ i < numChunks s + (m.chunkCount - numChunks s) := by
    omega
  simp [hyes]

lemma map_range_getD {α : Type} (cs : List α) (d : α) :
    (List.range cs.length).map (fun i => cs.getD i d) = cs := by
  induction cs with
  | nil => simp
  | cons c cs ih =>
      rw [List.length_cons, List.range_succ_eq_map]
      simp only [List.map_cons, List.map_map, List.getD_cons_zero]
      refine congrArg (c :: ·) ?_
      have hf : ((fun i => (c :: cs).getD i d) ∘ Nat.succ) = fun i => cs.getD i d := by
        funext i
        simp [Function.comp, List.getD_cons_succ]
      rw [hf, ih]

lemma readChunks_save (m : Meta) (s : List Char) (st : PngStore) :
    readChunks (save m s st) (numChunks s) = chunksOf s := by
  unfold readChunks
  have hn : numChunks s = (chunksOf s).length := rfl
  rw [hn]
  have : ∀ i, i < (chunksOf s).length →
      ((save m s st).chunkSlot i).getD [] = (chunksOf s).getD i [] := by
    intro i hi
    rw [save_chunkSlot_lt m s st i hi]
    rfl
  calc (List.range (chunksOf s).length).map (fun i => ((save m s st).chunkSlot i).getD [])
      = (List.range (chunksOf s).length).map (fun i => (chunksOf s).getD i []) := by
        refine List.map_congr_left ?_
        intro i hi
        exact this i (List.mem_range.mp hi)
    _ = chunksOf s := map_range_getD _ _

/-- Round-trip at the store level: after `save`, reading the metadata and
joining the recorded number of chunks recovers exactly the saved payload. -/
lemma loadString_save (m : Meta) (s : List Char) (st : PngStore) :
    loadString (save m s st) = some s := by
  unfold loadString
  rw [save_metaSlot]
  simp only [metaAfter]
  rw [readChunks_save, flatten_chunksOf]

end DomStorage

namespace LayerTree

/-- One record of the host's flat layer list `dom.layers`: its name and its
`layerType` (`"web"` for web layers). -/
structure HostLayer where
  name : String
  layerType : String
  deriving Repr, DecidableEq

/-- The node data recorded for `this._layers[i]` by
`LayerTree.prototype.refresh`: the `index: i` passed to the `Layer`
constructor, the index of the node chosen as `parent`
(`-1` for the synthetic root `this._root`), and the `sublayerIndex`
assigned at insertion. -/
structure BNode where
  index : Nat
  parent : Int
  sublayerIndex : Nat
  deriving Repr, DecidableEq

/-- The tree state built by `refresh`: `nodes` is the `this._layers` array
(position `i` holds the node made on loop pass `i`), and `subs j` is the
`_sublayers` array of the node with index `j` (`-1` for the synthetic
root), as a list of node indexes in insertion (bottom-up) order. -/
structure BTree where
  nodes : List BNode
  subs : Int → List Nat

/-- The default used when reading a node list out of range (models a
JavaScript `undefined` lookup; never reached in the proved statements). -/
def dummyNode : BNode := ⟨0, 0, 0⟩

/-- The body of one pass of the `refresh` loop at index `i`:
`parentLayerNum = dom.getParentLayerNum(i)`; the parent is
`this._layers[parentLayerNum] || this._root`, so the slot lookup succeeds
exactly when `0 ≤ parentLayerNum < this._layers.length` (the array holds the
previously constructed nodes), and otherwise the synthetic root (index `-1`)
is used; then `layer.sublayerIndex = layer.parent._sublayers.length` and
`layer.parent._sublayers.push(layer)`. -/
def refreshStep (p : Nat → Int) (i : Nat) (st : BTree) : BTree :=
  let pn := p i
  let parentIdx : Int :=
    if 0 ≤ pn ∧ pn < (st.nodes.length : Int) then pn else -1
  { nodes := st.nodes ++ [⟨i, parentIdx, (st.subs parentIdx).length⟩],
    subs := fun j =>
      if j = parentIdx then st.subs j ++ [i] else st.subs j }

/-- The `refresh` loop over the remaining host layers, starting at loop
index `i`.  When `_ignoreWebLayers` is set and the current record is a web
layer whose parent num is `-1`, the loop `break`s. -/
def refreshGo (p : Nat → Int) (ignoreWeb : Bool) :
    List HostLayer → Nat → BTree → BTree
  | [], _, st => st
  | L :: rest, i, st =>
      if ignoreWeb = true ∧ L.layerType = "web" ∧ p i = -1 then st
      else refreshGo p ignoreWeb rest (i + 1) (refreshStep p i st)

/-- `LayerTree.prototype.refresh` from files.js: rebuild the node array and
sublayer lists from the host's flat layer list `doc` and parent-index
function `p` (`dom.getParentLayerNum`). -/
def refresh (doc : List HostLayer) (p : Nat → Int) (ignoreWeb : Bool) : BTree :=
  refreshGo p ignoreWeb doc 0 ⟨[], fun _ => []⟩

/-- The effective parent recorded for loop index `i`: the host's parent
index when it names an already-constructed slot, the synthetic root
otherwise. -/
def effParent (p : Nat → Int) (i : Nat) : Int :=
  if 0 ≤ p i ∧ p i < (i : Int) then p i else -1

lemma refreshGo_spec (p : Nat → Int) (ignoreWeb : Bool) :
    ∀ (rest : List HostLayer) (i : Nat) (st : BTree),
      st.nodes.length = i →
      ∃ extra : List BNode,
        (refreshGo p ignoreWeb rest i st).nodes = st.nodes ++ extra ∧
        extra.length ≤ rest.length ∧
        (ignoreWeb = false → extra.length = rest.length) ∧
        ∀ t (ht : t < extra.length),
          (extra.get ⟨t, ht⟩).index = i + t ∧
          (extra.get ⟨t, ht⟩).parent = effParent p (i + t) := by
  intro rest
  induction rest with
  | nil =>
      intro i st _
      exact ⟨[], by simp [refreshGo], by simp, by simp, by intro t ht; simp at ht⟩
  | cons L rest ih =>
      intro i st hlen
      rw [refreshGo]
      by_cases hbrk : ignoreWeb = true ∧ L.layerType = "web" ∧ p i = -1
      · rw [if_pos hbrk]
        refine ⟨[], by simp, by simp, ?_, by intro t ht; simp at ht⟩
        intro hfalse
        rw [hfalse] at hbrk
        simp at hbrk
      · rw [if_neg hbrk]
        have hlen2 : (refreshStep p i st).nodes.length = i + 1 := by
          simp [refreshStep, hlen]
        obtain ⟨extra, hnodes, hle, hall, hget⟩ := ih (i + 1) (refreshStep p i st) hlen2
        have hstep : (refreshStep p i st).nodes =
            st.nodes ++ [⟨i, effParent p i, ((st.subs (effParent p i)).length)⟩] := by
          simp only [refreshStep, effParent, hlen]
        refine ⟨⟨i, effParent p i, (st.subs (effParent p i)).length⟩ :: extra, ?_, ?_, ?_, ?_⟩
        · rw [hnodes, hstep, List.append_assoc]
          rfl
        · simp only [List.length_cons]
          omega
        · intro hfalse
          have := hall hfalse
          simp only [List.length_cons, this, List.length_cons]
        · intro t ht
          match t with
          | 0 => exact ⟨by simp, by simp⟩
          | Nat.succ u =>
              have hu : u < extra.length := by
                simp only [List.length_cons] at ht
                omega
              have := hget u hu
              refine ⟨?_, ?_⟩
              · simpa [Nat.add_comm, Nat.add_assoc, Nat.add_left_comm] using this.1
              · have h2 := this.2
                have harith : i + 1 + u = i + (u + 1) := by omega
                rw [harith] at h2
                simpa using h2

/-- `refresh` puts at position `i` a node whose `index` is `i`. -/
lemma refresh_index_eq (doc : List HostLayer) (p : Nat → Int) (ignoreWeb : Bool)
    (i : Nat) (h : i < (refresh doc p ignoreWeb).nodes.length) :
    ((refresh doc p ignoreWeb).nodes.getD i dummyNode).index = i := by
  obtain ⟨extra, hnodes, -, -, hget⟩ :=
    refreshGo_spec p ignoreWeb doc 0 ⟨[], fun _ => []⟩ rfl
  have hnodes2 : (refresh doc p ignoreWeb).nodes = extra := by
    simpa [refresh] using hnodes
  have hlen : i < extra.length := by
    rw [hnodes2] at h
    exact h
  have hval := (hget i hlen).1
  rw [List.get_eq_getElem] at hval
  rw [hnodes2, List.getD_eq_getElem _ _ hlen]
  simpa using hval

/-- `refresh` records as a node's `parent` the host parent index when that
index names an earlier position, and the synthetic root `-1` otherwise. -/
lemma refresh_parent_eq (doc : List HostLayer) (p : Nat → Int) (ignoreWeb : Bool)
    (i : Nat) (h : i < (refresh doc p ignoreWeb).nodes.length) :
    ((refresh doc p ignoreWeb).nodes.getD i dummyNode).parent = effParent p i := by
  obtain ⟨extra, hnodes, -, -, hget⟩ :=
    refreshGo_spec p ignoreWeb doc 0 ⟨[], fun _ => []⟩ rfl
  have hnodes2 : (refresh doc p ignoreWeb).nodes = extra := by
    simpa [refresh] using hnodes
  have hlen : i < extra.length := by
    rw [hnodes2] at h
    exact h
  have hval := (hget i hlen).2
  rw [List.get_eq_getElem] at hval
  rw [hnodes2, List.getD_eq_getElem _ _ hlen]
  simpa using hval

/-- Without the web-layer `break`, `refresh` constructs one node per host
layer. -/
lemma refresh_length (doc : List HostLayer) (p : Nat → Int) :
    (refresh doc p false).nodes.length = doc.length := by
  obtain ⟨extra, hnodes, -, hall, -⟩ :=
    refreshGo_spec p false doc 0 ⟨[], fun _ => []⟩ rfl
  have hnodes2 : (refresh doc p false).nodes = extra := by
    simpa [refresh] using hnodes
  rw [hnodes2]
  exact hall rfl

/-- `getLayerText` from `layers.alertLayers`: one `"<index>: <name>\n"`
line, then the sub-layers in reversed (top-to-bottom) order, indented four
more spaces.  The layer's `name` getter reads `dom.layers[index].name`, so
`names` maps a node index to the host layer name.  `fuel` bounds the
recursion depth; `alertLayers` passes one more than the node count, which
exceeds the depth of any constructed tree. -/
def layerText (t : BTree) (names : Nat → String) :
    Nat → Nat → String → String
  | 0, _, _ => ""
  | fuel + 1, j, indent =>
      (t.subs (j : Int)).reverse.foldl
        (fun acc c => acc ++ layerText t names fuel c (indent ++ "    "))
        (indent ++ toString j ++ ": " ++ names j ++ "\n")

/-- `layers.alertLayers` (with `inJustReturnOutput = true`): build a
`LayerTree` for the document (web layers included), walk
`tree.topLayers.reverse()` and concatenate each top layer's text. -/
def alertLayers (doc : List HostLayer) (p : Nat → Int) : String :=
  let t := refresh doc p false
  let names := fun j => (doc.getD j ⟨"", ""⟩).name
  (t.subs (-1)).reverse.foldl
    (fun acc c => acc ++ layerText t names (t.nodes.length + 1) c "") ""

end LayerTree

namespace Nav

/-!
Navigation getters of the `Layer` class (files.js): `layerAbove`,
`layerBelow`, `topLayerAncestor`, `isTopLayer`.  A `Layer` instance carries
a `parent` pointer, a `_sublayers` array of children in bottom-up order
(`sublayerIndex` is the position in that array, assigned at construction),
and an `index` (`-1` for the synthetic root `this._root`).  The pointer
structure is rendered functionally: a tree of nodes with bottom-up child
lists, and a `Loc` is one `Layer` instance, i.e. one position strictly
inside the tree.  The `frame`/`up` path holds, for each ancestor, the
siblings below the current node (`below`, nearest first), the ancestor's
`index` (`pidx`), and the siblings above (`above`, nearest first); the
outermost frame's `pidx` is the root's index, `-1` in every tree built by
`refresh`.  `sublayerIndex` is `below.length` and
`parent._sublayers.length` is `below.length + 1 + above.length`, which is
how the constructed trees store them.
-/

/-- A layer subtree: the node's `index` and its `_sublayers` in bottom-up
order. -/
inductive LTree where
  | node : Int → List LTree → LTree

/-- The node's `index` attribute. -/
def LTree.index : LTree → Int
  | .node i _ => i

/-- The node's `_sublayers` array (bottom-up). -/
def LTree.sublayers : LTree → List LTree
  | .node _ cs => cs

/-- One step of the path from a node to the root: the siblings below the
node (nearest first), the parent's `index`, and the siblings above (nearest
first). -/
structure LFrame where
  below : List LTree
  pidx : Int
  above : List LTree

/-- A `Layer` instance: a position strictly inside a layer tree.  `frame`
describes the position within the parent; `up` continues to the root, whose
own frame is last. -/
structure Loc where
  tree : LTree
  frame : LFrame
  up : List LFrame

/-- Rebuild the parent's subtree from a node and its frame: the parent's
`_sublayers` are the below-siblings (restored to bottom-up order), the node
itself, then the above-siblings. -/
def parentTree (t : LTree) (f : LFrame) : LTree :=
  .node f.pidx (f.below.reverse ++ t :: f.above)

/-- `Layer.prototype.isTopLayer`: `this.parent.index == -1`. -/
def isTopLayer (loc : Loc) : Bool :=
  loc.frame.pidx = -1

/-- The drilling loop at the end of the `layerAbove` getter:
`while (currentLayer._sublayers.length > 0) currentLayer = currentLayer._sublayers[0];`
— descend into the bottom-most sub-layer until a layer without sub-layers
is reached. -/
def drill : LTree → LFrame → List LFrame → Loc
  | .node i [], f, up => ⟨.node i [], f, up⟩
  | .node i (c :: rest), f, up => drill c ⟨[], i, rest⟩ (f :: up)

/-- The `layerAbove` getter: if the layer has a sibling at
`sublayerIndex + 1`, move there and drill down to its lowest descendant;
otherwise the parent is what is above, unless the layer is a top layer, in
which case the result is `null` (top of the stack). -/
def layerAbove : Loc → Option Loc
  | ⟨t, ⟨bel, pidx, a :: abv⟩, up⟩ => some (drill a ⟨t :: bel, pidx, abv⟩ up)
  | ⟨t, ⟨bel, pidx, []⟩, up⟩ =>
      if pidx = -1 then none
      else
        match up with
        | [] => none
        | f :: up2 => some ⟨parentTree t ⟨bel, pidx, []⟩, f, up2⟩

/-- The walk-up loop of the `layerBelow` getter:
`while (currentLayer.parent) { if (sublayerIndex > 0) return parent._sublayers[sublayerIndex - 1]; currentLayer = currentLayer.parent; }`
— return the nearest lower sibling of the closest ancestor that has one,
or `null` after reaching the root (bottom of the stack). -/
def walkUp : LTree → LFrame → List LFrame → Option Loc
  | t, ⟨b :: bel, pidx, abv⟩, up => some ⟨b, ⟨bel, pidx, t :: abv⟩, up⟩
  | _, ⟨[], _, _⟩, [] => none
  | t, ⟨[], pidx, abv⟩, f :: up => walkUp (.node pidx (t :: abv)) f up

/-- The `layerBelow` getter: if the layer has sub-layers, the layer just
below it is its last (top-most) sub-layer; otherwise walk up the parents
looking for a lower sibling. -/
def layerBelow : Loc → Option Loc
  | ⟨.node i [], f, up⟩ => walkUp (.node i []) f up
  | ⟨.node i (c :: rest), f, up⟩ =>
      some ⟨(c :: rest).getLast (List.cons_ne_nil c rest),
        ⟨((c :: rest).dropLast).reverse, i, []⟩, f :: up⟩

/-- The `topLayerAncestor` getter:
`while (!layer.isTopLayer) layer = layer.parent; return layer;`.
Returns `none` only when the walk reaches the root without passing a frame
whose parent index is `-1` — in the source this would dereference the null
`parent` of `this._root`, which cannot happen in a tree built by `refresh`
(the root's index is `-1`). -/
def topLayerAncestor : LTree → LFrame → List LFrame → Option Loc
  | t, f, [] => if f.pidx = -1 then some ⟨t, f, []⟩ else none
  | t, f, f2 :: up2 =>
      if f.pidx = -1 then some ⟨t, f, f2 :: up2⟩
      else topLayerAncestor (parentTree t f) f2 up2

/-- The parent index recorded in the outermost frame of a position: the
index of the node the walk to the root ends at.  In every tree built by
`refresh` this is the synthetic root, of index `-1`. -/
def rootIndex (f : LFrame) (up : List LFrame) : Int :=
  (up.getLastD f).pidx

/-- Drilling ends at a layer without sub-layers. -/
lemma drill_sublayers_nil (t : LTree) (f : LFrame) (up : List LFrame) :
    (drill t f up).tree.sublayers = [] := by
  induction t, f, up using drill.induct with
  | case1 i f up => simp [drill, LTree.sublayers]
  | case2 i c rest f up ih => rw [drill]; exact ih

/-- Walking up from the drilled position is the same as walking up from the
position the drill started at: every frame the drill pushes has an empty
below-list, and popping it restores exactly the subtree it descended into. -/
lemma walkUp_drill (t : LTree) (f : LFrame) (up : List LFrame) :
    walkUp (drill t f up).tree (drill t f up).frame (drill t f up).up =
      walkUp t f up := by
  induction t, f, up using drill.induct with
  | case1 i f up => simp [drill]
  | case2 i c rest f up ih =>
      rw [drill, ih]
      rw [walkUp]

/-- If the walk-up loop finds the layer below, then `layerAbove` of that
layer drills back to the position the walk started from. -/
lemma layerAbove_walkUp :
    ∀ (up : List LFrame) (t : LTree) (f : LFrame) (y : Loc),
      walkUp t f up = some y → layerAbove y = some (drill t f up) := by
  intro up
  induction up with
  | nil =>
      intro t f y hw
      match f with
      | ⟨b :: bel, pidx, abv⟩ =>
          rw [walkUp] at hw
          cases hw
          rw [layerAbove]
      | ⟨[], pidx, abv⟩ =>
          rw [walkUp] at hw
          cases hw
  | cons f2 up2 ih =>
      intro t f y hw
      match f with
      | ⟨b :: bel, pidx, abv⟩ =>
          rw [walkUp] at hw
          cases hw
          rw [layerAbove]
      | ⟨[], pidx, abv⟩ =>
          rw [walkUp] at hw
          rw [ih (.node pidx (t :: abv)) f2 y hw, drill]

/-- On a layer without sub-layers, `layerBelow` is the walk-up loop. -/
lemma layerBelow_of_sublayers_nil (loc : Loc)
    (h : loc.tree.sublayers = []) :
    layerBelow loc = walkUp loc.tree loc.frame loc.up := by
  match loc with
  | ⟨.node i [], f, up⟩ => rw [layerBelow]
  | ⟨.node i (c :: rest), f, up⟩ => simp [LTree.sublayers] at h

/-- On a layer with sub-layers, `layerBelow` is the last (top-most)
sub-layer. -/
lemma layerBelow_of_sublayers_ne_nil (i : Int) (cs : List LTree) (f : LFrame)
    (up : List LFrame) (h : cs ≠ []) :
    layerBelow ⟨.node i cs, f, up⟩ =
      some ⟨cs.getLast h, ⟨cs.dropLast.reverse, i, []⟩, f :: up⟩ := by
  match cs with
  | c :: rest => rw [layerBelow]

/-- First half of the navigation symmetry: if the layer above exists, its
layer below is the original layer. -/
lemma layerBelow_layerAbove (x y : Loc) (h : layerAbove x = some y) :
    layerBelow y = some x := by
  match x with
  | ⟨t, ⟨bel, pidx, a :: abv⟩, up⟩ =>
      rw [layerAbove] at h
      cases h
      rw [layerBelow_of_sublayers_nil _ (drill_sublayers_nil a ⟨t :: bel, pidx, abv⟩ up),
        walkUp_drill, walkUp]
  | ⟨t, ⟨bel, pidx, []⟩, up⟩ =>
      rw [layerAbove.eq_def] at h
      simp only at h
      by_cases hp : pidx = -1
      · rw [if_pos hp] at h
        exact absurd h (by simp)
      · rw [if_neg hp] at h
        match up with
        | [] => exact absurd h (by simp)
        | f :: up2 =>
            simp only [Option.some.injEq] at h
            subst h
            have hne : (bel.reverse ++ t :: ([] : List LTree)) ≠ [] := by simp
            rw [parentTree]
            rw [layerBelow_of_sublayers_ne_nil pidx _ f up2 hne]
            congr 1
            refine congrArg₂ (fun a b => Loc.mk a b (f :: up2)) ?_ ?_
            · exact List.getLast_concat _
            · rw [List.dropLast_concat, List.reverse_reverse]

/-- Second half of the navigation symmetry: if the layer below exists and
the original layer is a real layer (its `index` is not the root's `-1`),
its layer above is the original layer. -/
lemma layerAbove_layerBelow (x y : Loc) (hidx : x.tree.index ≠ -1)
    (h : layerBelow x = some y) : layerAbove y = some x := by
  match x with
  | ⟨.node i (c :: rest), f, up⟩ =>
      rw [layerBelow] at h
      simp only [Option.some.injEq] at h
      subst h
      rw [layerAbove]
      have hne : i ≠ -1 := by simpa [LTree.index] using hidx
      rw [if_neg hne]
      simp only [Option.some.injEq]
      rw [parentTree]
      simp only [List.reverse_reverse]
      refine congrArg₂ (fun a b => Loc.mk a b up) ?_ rfl
      refine congrArg (LTree.node i) ?_
      have := List.dropLast_append_getLast (List.cons_ne_nil c rest)
      simpa using this
  | ⟨.node i [], f, up⟩ =>
      rw [layerBelow] at h
      rw [layerAbove_walkUp up (.node i []) f y h, drill]

/-- The `topLayerAncestor` walk, on any position whose walk to the root
does end at a frame of parent index `-1` (as in every tree built by
`refresh`), returns a layer whose parent is the root; a top layer is its
own ancestor. -/
lemma topLayerAncestor_spec :
    ∀ (up : List LFrame) (t : LTree) (f : LFrame),
      rootIndex f up = -1 →
      ∃ r : Loc, topLayerAncestor t f up = some r ∧ r.frame.pidx = -1 ∧
        (f.pidx = -1 → r = ⟨t, f, up⟩) := by
  intro up
  induction up with
  | nil =>
      intro t f hr
      have hp : f.pidx = -1 := by simpa [rootIndex] using hr
      exact ⟨⟨t, f, []⟩, by rw [topLayerAncestor, if_pos hp], hp, fun _ => rfl⟩
  | cons f2 up2 ih =>
      intro t f hr
      by_cases hp : f.pidx = -1
      · exact ⟨⟨t, f, f2 :: up2⟩, by rw [topLayerAncestor, if_pos hp], hp, fun _ => rfl⟩
      · have hr2 : rootIndex f2 up2 = -1 := by
          rw [rootIndex] at hr ⊢
          rw [List.getLastD_cons] at hr
          exact hr
        obtain ⟨r, h1, h2, h3⟩ := ih (parentTree t f) f2 hr2
        exact ⟨r, by rw [topLayerAncestor, if_neg hp]; exact h1, h2,
          fun hc => absurd hc hp⟩

end Nav

namespace Accessors

/-!
The stale-reference behaviour of the `Layer` accessors (files.js).
`LayerTree.prototype.refresh` sets `layer._stale = true` on every previously
existing node of the tree.  The getters are embedded as functions on the
host document state and the instance's stored fields; a thrown JavaScript
string is an `Except.error`.
-/

/-- The host-side per-layer state read by the getters. -/
structure HostLayerState where
  name : String
  visible : Bool
  locked : Bool
  deriving Repr, DecidableEq

/-- The default a JavaScript out-of-range indexing would make observable;
never reached at the inputs of the proved statements. -/
def defaultState : HostLayerState := ⟨"", false, false⟩

/-- The host document as the getters see it: `dom.layers` and
`dom.frames[f].layers`. -/
structure HostDoc where
  layers : List HostLayerState
  frames : List (List HostLayerState)

/-- The fields of a `Layer` instance used by the getters: `index`,
`_frameIndex`, the `_stale` flag set by `refresh`, and the `index` of its
`parent` node. -/
structure MLayer where
  index : Int
  frameIndex : Nat
  stale : Bool
  parentIndex : Int
  deriving Repr, DecidableEq

/-- The `layer` getter: `if (this._stale) throw "Attempt to use a stale reference to layer: ..."; return this._dom.layers[this.index];` — the only getter that tests `_stale`. -/
def layerGet (d : HostDoc) (l : MLayer) : Except String HostLayerState :=
  if l.stale then .error "Attempt to use a stale reference to layer"
  else .ok (d.layers.getD l.index.toNat defaultState)

/-- The `name` getter: `this.layer.name` for a real index (which passes
through the `layer` getter and hence its staleness check), `"[[ROOT]]"`
for the root. -/
def nameGet (d : HostDoc) (l : MLayer) : Except String String :=
  if l.index > -1 then (layerGet d l).map (fun s => s.name)
  else .ok "[[ROOT]]"

/-- The `visible` getter:
`if (this.index == -1) return false; return this._dom.frames[this._frameIndex].layers[this.index].visible;`
— reads the host state directly, with no staleness check. -/
def visibleGet (d : HostDoc) (l : MLayer) : Except String Bool :=
  if l.index = -1 then .ok false
  else .ok (((d.frames.getD l.frameIndex []).getD l.index.toNat defaultState).visible)

/-- The `locked` getter, same shape as `visible`: no staleness check. -/
def lockedGet (d : HostDoc) (l : MLayer) : Except String Bool :=
  if l.index = -1 then .ok false
  else .ok (((d.frames.getD l.frameIndex []).getD l.index.toNat defaultState).locked)

/-- The `isTopLayer` getter: `this.parent.index == -1`, no staleness
check. -/
def isTopLayerGet (l : MLayer) : Except String Bool :=
  .ok (l.parentIndex = -1)

end Accessors

namespace Reserved

/-!
The reserved-property protection of `DomStorage` (src/lib/fwlib/DomStorage.js,
second module version): `save` and `remove` are installed as getter-only
properties before any data is copied in, and `mixin` skips names listed in
`k.ReservedNames` when copying default or previously stored data onto the
instance.  An instance is modelled as a property map; a data value is a
string (standing for arbitrary JSON-restorable data), distinguished from
the two built-in methods.
-/

/-- A property value on a `DomStorage` instance: one of the two built-in
methods, or plain data. -/
inductive PropVal where
  | builtinSave
  | builtinRemove
  | data : String → PropVal
  deriving Repr, DecidableEq

/-- `k.ReservedNames = { save: true, remove: true }`. -/
def ReservedNames : List String := ["save", "remove"]

/-- `mixin(inDestination, inSource)`: copy every property of the source
whose name is not reserved onto the destination, in order. -/
def mixin (dest : String → Option PropVal) (src : List (String × PropVal)) :
    String → Option PropVal :=
  src.foldl
    (fun d nv =>
      if nv.1 ∈ ReservedNames then d
      else fun n => if n = nv.1 then some nv.2 else d n)
    dest

/-- The two `__defineGetter__` calls in the constructor: `save` and
`remove` resolve to the built-in methods before any mixin runs. -/
def defineBuiltins (inst : String → Option PropVal) : String → Option PropVal :=
  fun n =>
    if n = "save" then some .builtinSave
    else if n = "remove" then some .builtinRemove
    else inst n

/-- The property state of a `DomStorage` instance after construction:
getters installed, then `mixin(this, inDefaultData)`, then
`mixin(this, JSON.parse(chunks.join("")))` for the previously stored
data. -/
def construct (defaults stored : List (String × PropVal)) :
    String → Option PropVal :=
  mixin (mixin (defineBuiltins fun _ => none) defaults) stored

/-- Assignment to a property of the instance: the reserved names have only
getters, so assigning to them has no effect (non-strict-mode JavaScript
silently ignores a set on an accessor property without a setter). -/
def setProp (inst : String → Option PropVal) (name : String) (v : PropVal) :
    String → Option PropVal :=
  if name ∈ ReservedNames then inst
  else fun n => if n = name then some v else inst n

/-- `mixin` never changes a reserved name. -/
lemma mixin_reserved (name : String) (hname : name ∈ ReservedNames) :
    ∀ (src : List (String × PropVal)) (dest : String → Option PropVal),
      mixin dest src name = dest name := by
  intro src
  induction src with
  | nil => intro dest; rfl
  | cons nv rest ih =>
      intro dest
      rw [mixin, List.foldl_cons]
      by_cases hres : nv.1 ∈ ReservedNames
      · rw [if_pos hres]
        exact ih dest
      · rw [if_neg hres]
        have hne : name ≠ nv.1 := fun hc => hres (hc ▸ hname)
        rw [show (List.foldl
            (fun d nv =>
              if nv.1 ∈ ReservedNames then d
              else fun n => if n = nv.1 then some nv.2 else d n)
            (fun n => if n = nv.1 then some nv.2 else dest n) rest) =
          mixin (fun n => if n = nv.1 then some nv.2 else dest n) rest from rfl,
          ih, if_neg hne]

end Reserved

/-! Concrete inputs used by the claim witnesses and counterexamples. -/

namespace LayerTree

/-- The spec's example flat layer list:
`[{parent:-1,name:"Layer 1"},{parent:0,name:"Layer 2"},{parent:-1,name:"Layer 3"}]`. -/
def exampleDoc : List HostLayer :=
  [⟨"Layer 1", "normal"⟩, ⟨"Layer 2", "normal"⟩, ⟨"Layer 3", "normal"⟩]

/-- The parent-index function of the example list. -/
def exampleParent : Nat → Int := fun n => if n = 1 then 0 else -1

/-- A two-layer host list whose first record names the not-yet-constructed
position 1 as its parent (a forward reference). -/
def forwardDoc : List HostLayer := [⟨"A", "normal"⟩, ⟨"B", "normal"⟩]

/-- The parent-index function with the forward reference at position 0. -/
def forwardParent : Nat → Int := fun n => if n = 0 then 1 else -1

end LayerTree

namespace DomStorage

/-- A pngText store slice with nothing saved yet. -/
def emptyStore : PngStore := ⟨none, fun _ => none⟩

/-- A sample metadata record, as after the constructor's defaults
(`chunkCount: 1`). -/
def demoMeta : Meta := ⟨"Settings", 1, 1⟩

/-- A payload long enough to need two chunks. -/
def longPayload : List Char := List.replicate 1024 'a'

/-- A payload needing a single chunk. -/
def shortPayload : List Char := ['b']

end DomStorage

namespace Nav

/-- The position of node 2 in the example tree: the top-most top layer,
with the subtree of node 0 (containing node 1) below it. -/
def locTop : Loc :=
  ⟨.node 2 [], ⟨[.node 0 [.node 1 []]], -1, []⟩, []⟩

/-- The position of node 0 in the same tree: the lower top layer, with one
sub-layer (node 1) and node 2 above it. -/
def locBelowTop : Loc :=
  ⟨.node 0 [.node 1 []], ⟨[], -1, [.node 2 []]⟩, []⟩

/-- The position of node 1 of the example tree: a sub-layer of node 0,
whose walk to the root passes its parent of index 0 and then the root. -/
def subTree : LTree := .node 1 []

/-- Node 1's frame within its parent (node 0). -/
def subFrame : LFrame := ⟨[], 0, []⟩

/-- Node 1's remaining path: node 0's frame within the root. -/
def subUp : List LFrame := [⟨[], -1, [.node 2 []]⟩]

end Nav

namespace Accessors

/-- A host document with a single layer. -/
def staleDoc : HostDoc :=
  ⟨[⟨"Layer 1", false, false⟩], [[⟨"Layer 1", false, false⟩]]⟩

/-- A `Layer` instance for index 0 whose `_stale` flag was set by a
`refresh`. -/
def staleLayer : MLayer := ⟨0, 0, true, -1⟩

end Accessors

/-! The claim theorems. -/

/-- C1: for every flat layer list snapshot, building or refreshing a
`LayerTree` yields an internal layers array in which the node stored at
position `i` has `index` attribute equal to `i`, for every `i` in range of
the constructed array. -/
theorem C1_layers_index_eq_position (doc : List LayerTree.HostLayer)
    (p : Nat → Int) (ignoreWeb : Bool) (i : Nat)
    (h : i < (LayerTree.refresh doc p ignoreWeb).nodes.length) :
    ((LayerTree.refresh doc p ignoreWeb).nodes.getD i LayerTree.dummyNode).index = i :=
  LayerTree.refresh_index_eq doc p ignoreWeb i h

/-- Witness for C1 at position 1 of the example document. -/
theorem C1_witness :
    1 < (LayerTree.refresh LayerTree.exampleDoc LayerTree.exampleParent false).nodes.length ∧
    ((LayerTree.refresh LayerTree.exampleDoc LayerTree.exampleParent
        false).nodes.getD 1 LayerTree.dummyNode).index = 1 :=
  ⟨by decide,
   C1_layers_index_eq_position LayerTree.exampleDoc LayerTree.exampleParent false 1 (by decide)⟩

/-- C2: for every payload (including the empty string and payloads spanning
multiple chunks), saving the payload and then loading the same key returns
a value equal to the payload. -/
theorem C2_save_load_roundtrip (m : DomStorage.Meta) (s : List Char)
    (st : DomStorage.PngStore) :
    DomStorage.loadString (DomStorage.save m s st) = some s :=
  DomStorage.loadString_save m s st

/-- C3 counterexample: on a flat list whose position 0 names the
not-yet-constructed position 1 as its parent, construction runs to
completion (both nodes are built) with no error, silently attaching node 0
to the synthetic root (`parent = -1`); no `ParentNotFound` failure exists
on this path (`this._layers[parentLayerNum] || this._root`). -/
theorem C3_counterexample_forward_reference :
    (LayerTree.refresh LayerTree.forwardDoc LayerTree.forwardParent false).nodes.length = 2 ∧
    ((LayerTree.refresh LayerTree.forwardDoc LayerTree.forwardParent
        false).nodes.getD 0 LayerTree.dummyNode).parent = -1 ∧
    ((LayerTree.refresh LayerTree.forwardDoc LayerTree.forwardParent
        false).nodes.getD 1 LayerTree.dummyNode).parent = -1 := by
  decide

/-- C3 amended: when `parentIndexOf(i)` returns an index whose node has not
yet been constructed (a forward reference, a cycle, or `-1`), the node is
silently attached to the synthetic root and construction proceeds to build
one node per host layer; no error is raised. -/
theorem C3_amended_silent_root_attachment (doc : List LayerTree.HostLayer)
    (p : Nat → Int) (i : Nat)
    (h : i < (LayerTree.refresh doc p false).nodes.length) :
    (LayerTree.refresh doc p false).nodes.length = doc.length ∧
    ((LayerTree.refresh doc p false).nodes.getD i LayerTree.dummyNode).parent =
      (if 0 ≤ p i ∧ p i < (i : Int) then p i else -1) :=
  ⟨LayerTree.refresh_length doc p,
   LayerTree.refresh_parent_eq doc p false i h⟩

/-- Witness for C3's amended statement at the forward-reference input. -/
theorem C3_amended_witness :
    0 < (LayerTree.refresh LayerTree.forwardDoc LayerTree.forwardParent false).nodes.length ∧
    (LayerTree.refresh LayerTree.forwardDoc LayerTree.forwardParent false).nodes.length =
      LayerTree.forwardDoc.length ∧
    ((LayerTree.refresh LayerTree.forwardDoc LayerTree.forwardParent
        false).nodes.getD 0 LayerTree.dummyNode).parent =
      (if 0 ≤ LayerTree.forwardParent 0 ∧ LayerTree.forwardParent 0 < (0 : Int)
        then LayerTree.forwardParent 0 else -1) :=
  ⟨by decide,
   (C3_amended_silent_root_attachment LayerTree.forwardDoc LayerTree.forwardParent 0
      (by decide)).1,
   (C3_amended_silent_root_attachment LayerTree.forwardDoc LayerTree.forwardParent 0
      (by decide)).2⟩

/-- C4: on a stale node, the `layer` accessor throws, but the `visible` and
`locked` accessors perform no staleness check and return host data computed
from the possibly shifted index — contradicting the claim (and the code's
own documentation at `Layer.prototype.remove`) that every accessor on a
stale node raises an error. -/
theorem C4_stale_accessors_divergence :
    Accessors.staleLayer.stale = true ∧
    (∃ e, Accessors.layerGet Accessors.staleDoc Accessors.staleLayer = .error e) ∧
    Accessors.visibleGet Accessors.staleDoc Accessors.staleLayer = .ok false ∧
    Accessors.lockedGet Accessors.staleDoc Accessors.staleLayer = .ok false :=
  ⟨rfl, ⟨_, rfl⟩, rfl, rfl⟩

/-- C5: when a save needs fewer chunks than the previously recorded
`chunkCount` for the same key, `save` clears each now-unused higher-indexed
chunk slot by writing the empty string, and a subsequent load returns
exactly the shorter payload. -/
theorem C5_shrink_clears_unused_slots (m0 : DomStorage.Meta)
    (s1 s2 : List Char) (st : DomStorage.PngStore) (i : Nat)
    (h1 : DomStorage.numChunks s2 ≤ i) (h2 : i < DomStorage.numChunks s1) :
    (DomStorage.save (DomStorage.metaAfter m0 s1) s2
        (DomStorage.save m0 s1 st)).chunkSlot i = some [] ∧
    DomStorage.loadString (DomStorage.save (DomStorage.metaAfter m0 s1) s2
        (DomStorage.save m0 s1 st)) = some s2 := by
  constructor
  · apply DomStorage.save_chunkSlot_cleared
    · exact h1
    · simpa [DomStorage.metaAfter] using h2
  · exact DomStorage.loadString_save _ _ _

/-- Witness for C5: a two-chunk payload shrunk to a one-chunk payload
clears slot 1 and loads the short payload. -/
theorem C5_witness :
    DomStorage.numChunks DomStorage.shortPayload ≤ 1 ∧
    1 < DomStorage.numChunks DomStorage.longPayload ∧
    (DomStorage.save (DomStorage.metaAfter DomStorage.demoMeta DomStorage.longPayload)
        DomStorage.shortPayload
        (DomStorage.save DomStorage.demoMeta DomStorage.longPayload
          DomStorage.emptyStore)).chunkSlot 1 = some [] :=
  ⟨by decide, by decide,
   (C5_shrink_clears_unused_slots DomStorage.demoMeta DomStorage.longPayload
      DomStorage.shortPayload DomStorage.emptyStore 1 (by decide) (by decide)).1⟩

/-- C6: on every save, every store assignment before the last one is a
chunk-slot write, the last assignment is the metadata write carrying the
new chunk count, and after any proper prefix of the assignments the
metadata slot still holds its previous contents — so no observable
intermediate state has metadata claiming more chunks than have been
written. -/
theorem C6_metadata_written_last (m : DomStorage.Meta) (s : List Char)
    (st : DomStorage.PngStore) :
    (∀ op ∈ (DomStorage.saveTrace m s).dropLast, op.isChunk = true) ∧
    (DomStorage.saveTrace m s).getLast? =
      some (.meta (DomStorage.metaAfter m s)) ∧
    (∀ n, n < (DomStorage.saveTrace m s).length →
      (DomStorage.applyOps st ((DomStorage.saveTrace m s).take n)).metaSlot =
        st.metaSlot) := by
  have hshape : DomStorage.saveTrace m s =
      (DomStorage.chunkWrites 0 (DomStorage.chunksOf s) ++
        DomStorage.clearWrites (DomStorage.numChunks s) m.chunkCount) ++
        [.meta (DomStorage.metaAfter m s)] := by
    rw [DomStorage.saveTrace, List.append_assoc]
  have hchunks : ∀ op ∈ DomStorage.chunkWrites 0 (DomStorage.chunksOf s) ++
      DomStorage.clearWrites (DomStorage.numChunks s) m.chunkCount,
      op.isChunk = true := by
    intro op hop
    rcases List.mem_append.mp hop with hop | hop
    · exact DomStorage.chunkWrites_isChunk 0 _ op hop
    · exact DomStorage.clearGo_isChunk _ _ op hop
  refine ⟨?_, ?_, ?_⟩
  · rw [hshape, List.dropLast_concat]
    exact hchunks
  · rw [hshape]
    exact List.getLast?_concat _
  · intro n hn
    rw [hshape] at hn ⊢
    rw [List.length_append, List.length_singleton] at hn
    have hle : n ≤ (DomStorage.chunkWrites 0 (DomStorage.chunksOf s) ++
        DomStorage.clearWrites (DomStorage.numChunks s) m.chunkCount).length := by
      omega
    rw [List.take_append_of_le_length hle]
    exact DomStorage.applyOps_metaSlot_of_chunks _
      (fun op hop => hchunks op (List.mem_of_mem_take hop)) st

/-- Witness for C6: the one-element prefix of a concrete save leaves the
metadata slot empty. -/
theorem C6_witness :
    1 < (DomStorage.saveTrace DomStorage.demoMeta DomStorage.shortPayload).length ∧
    (DomStorage.applyOps DomStorage.emptyStore
        ((DomStorage.saveTrace DomStorage.demoMeta DomStorage.shortPayload).take 1)).metaSlot =
      DomStorage.emptyStore.metaSlot :=
  ⟨by decide,
   (C6_metadata_written_last DomStorage.demoMeta DomStorage.shortPayload
      DomStorage.emptyStore).2.2 1 (by decide)⟩

/-- C7: `layerAbove` and `layerBelow` are mutually inverse: whenever
`layerAbove` of a node exists, its `layerBelow` is the original node, and
whenever `layerBelow` of a real (non-root-indexed) node exists, its
`layerAbove` is the original node; at a stack extremity the corresponding
navigation result is `none`, making the hypothesis vacuous there. -/
theorem C7_layer_above_below_inverse (x y : Nav.Loc) :
    (Nav.layerAbove x = some y → Nav.layerBelow y = some x) ∧
    (x.tree.index ≠ -1 → Nav.layerBelow x = some y → Nav.layerAbove y = some x) :=
  ⟨Nav.layerBelow_layerAbove x y,
   fun h1 h2 => Nav.layerAbove_layerBelow x y h1 h2⟩

/-- Witness for C7 on the example tree: node 2 (top layer) and node 0
below it. -/
theorem C7_witness :
    Nav.layerBelow Nav.locTop = some Nav.locBelowTop ∧
    Nav.layerAbove Nav.locBelowTop = some Nav.locTop :=
  ⟨(C7_layer_above_below_inverse Nav.locBelowTop Nav.locTop).1
      (by simp [Nav.locBelowTop, Nav.locTop, Nav.layerAbove, Nav.drill]),
   (C7_layer_above_below_inverse Nav.locTop Nav.locBelowTop).2
      (by decide) (by rfl)⟩

/-- C8: for every node whose walk to the root ends at the synthetic root
(index `-1`), `topLayerAncestor` returns a node whose parent is the root,
and a node that is itself top-level is returned unchanged. -/
theorem C8_top_layer_ancestor (t : Nav.LTree) (f : Nav.LFrame)
    (up : List Nav.LFrame) (h : Nav.rootIndex f up = -1) :
    ∃ r, Nav.topLayerAncestor t f up = some r ∧ r.frame.pidx = -1 ∧
      (f.pidx = -1 → r = ⟨t, f, up⟩) :=
  Nav.topLayerAncestor_spec up t f h

/-- Witness for C8 at node 1 of the example tree, a sub-layer of node 0. -/
theorem C8_witness :
    Nav.rootIndex Nav.subFrame Nav.subUp = -1 ∧
    ∃ r, Nav.topLayerAncestor Nav.subTree Nav.subFrame Nav.subUp = some r ∧
      r.frame.pidx = -1 ∧
      (Nav.subFrame.pidx = -1 → r = ⟨Nav.subTree, Nav.subFrame, Nav.subUp⟩) :=
  ⟨by decide, C8_top_layer_ancestor Nav.subTree Nav.subFrame Nav.subUp (by decide)⟩

/-- C9: on the example flat list, the built tree's top layers are nodes 0
and 2 (bottom-up), node 0's sub-layer list is node 1, and the
`alertLayers` dump equals the expected text. -/
theorem C9_example_scenario :
    (LayerTree.refresh LayerTree.exampleDoc LayerTree.exampleParent false).subs (-1) = [0, 2] ∧
    (LayerTree.refresh LayerTree.exampleDoc LayerTree.exampleParent false).subs 0 = [1] ∧
    LayerTree.alertLayers LayerTree.exampleDoc LayerTree.exampleParent =
      "2: Layer 3\n0: Layer 1\n    1: Layer 2\n" := by
  refine ⟨by decide, by decide, by decide⟩

/-- C10: for every `DomStorage` instance, the reserved properties `save`
and `remove` resolve to the built-in methods after construction no matter
what default or previously stored data was mixed in, and assigning to
either reserved name leaves the instance unchanged. -/
theorem C10_reserved_names_protected
    (defaults stored : List (String × Reserved.PropVal))
    (inst : String → Option Reserved.PropVal) (v : Reserved.PropVal) :
    Reserved.construct defaults stored "save" = some .builtinSave ∧
    Reserved.construct defaults stored "remove" = some .builtinRemove ∧
    Reserved.setProp inst "save" v = inst ∧
    Reserved.setProp inst "remove" v = inst := by
  refine ⟨?_, ?_, ?_, ?_⟩
  · rw [Reserved.construct,
      Reserved.mixin_reserved "save" (by decide) stored,
      Reserved.mixin_reserved "save" (by decide) defaults]
    decide
  · rw [Reserved.construct,
      Reserved.mixin_reserved "remove" (by decide) stored,
      Reserved.mixin_reserved "remove" (by decide) defaults]
    decide
  · rw [Reserved.setProp, if_pos (by decide)]
  · rw [Reserved.setProp, if_pos (by decide)]

end Fwlib
